import Mathlib

/-!
Verification of the moulti step content streaming pipeline
(`src/moulti/widgets/step/tui.py` and `src/moulti/widgets/moultilog.py`).

Python strings are modelled as lists of characters (`Str`); the two
worker loops are modelled as recursive functions over the finite list of
values they consume; the hand-off queue is the list of values pushed by
the producer, in order.
-/

/-- A Python string: a finite sequence of unicode code points. -/
abbrev Str := List Char

/-- Concatenation of a list of strings (Python `''.join(buffer)`). -/
def joinStr : List Str → Str
  | [] => []
  | s :: rest => s ++ joinStr rest

/-- `data.rfind('\n')` followed by the slicing `data[:eol]` / `data[eol+1:]`:
returns `some (before, after)` where `before` is everything before the last
newline and `after` everything after it, or `none` when the string holds no
newline. -/
def splitLastNL : Str → Option (Str × Str)
  | [] => Option.none
  | c :: cs =>
    match splitLastNL cs with
    | Option.some (b, a) => Option.some (c :: b, a)
    | Option.none => if c = '\n' then Option.some ([], cs) else Option.none

/-- The trailing-newline strip performed by `Step.append`
(`if text and text[-1] == '\n': text = text[:-1]`). -/
def stripOneNL (t : Str) : Str :=
  if t.getLast? = Option.some '\n' then t.dropLast else t

/-- `'\n'.join(texts)`. -/
def joinNL : List Str → Str
  | [] => []
  | [s] => s
  | s :: s2 :: rest => s ++ '\n' :: joinNL (s2 :: rest)

/-- Splitting a text on every newline character (used only to state the
spec's claimed relation between sink calls and line splitting). -/
def splitOnNL : Str → List Str
  | [] => [[]]
  | c :: rest =>
    if c = '\n' then [] :: splitOnNL rest
    else
      match splitOnNL rest with
      | r :: rs => (c :: r) :: rs
      | [] => [[c]]

/-- Modelled from the spec: "the sequence obtained by splitting the full
concatenation on newline boundaries, with the same trailing-newline handling
(at most one stripped per call)". -/
def specSplitLines (s : Str) : List Str :=
  splitOnNL (stripOneNL s)

/- ### Basic lemmas about the string helpers -/

theorem joinStr_append (xs ys : List Str) :
    joinStr (xs ++ ys) = joinStr xs ++ joinStr ys := by
  induction xs with
  | nil => simp [joinStr]
  | cons x xs ih => simp [joinStr, ih]

theorem joinStr_concat (xs : List Str) (c : Str) :
    joinStr (xs ++ [c]) = joinStr xs ++ c := by
  simp [joinStr_append, joinStr]

theorem splitLastNL_none {l : Str} (h : splitLastNL l = Option.none) :
    '\n' ∉ l := by
  induction l with
  | nil => simp
  | cons c cs ih =>
    simp only [splitLastNL] at h
    cases hcs : splitLastNL cs with
    | some p => rw [hcs] at h; cases h
    | none =>
      rw [hcs] at h
      by_cases hc : c = '\n'
      · simp [hc] at h
      · simp only [List.mem_cons, not_or]
        exact ⟨fun hh => hc hh.symm, ih hcs⟩

theorem splitLastNL_some {l b a : Str} (h : splitLastNL l = Option.some (b, a)) :
    l = b ++ '\n' :: a ∧ '\n' ∉ a := by
  induction l generalizing b a with
  | nil => cases h
  | cons c cs ih =>
    simp only [splitLastNL] at h
    cases hcs : splitLastNL cs with
    | some p =>
      rw [hcs] at h
      obtain ⟨b', a'⟩ := p
      simp only [Option.some.injEq, Prod.mk.injEq] at h
      obtain ⟨rfl, rfl⟩ := h
      obtain ⟨hl, hna⟩ := ih hcs
      exact ⟨by rw [List.cons_append, ← hl], hna⟩
    | none =>
      rw [hcs] at h
      by_cases hc : c = '\n'
      · simp only [hc, if_pos rfl, Option.some.injEq, Prod.mk.injEq] at h
        obtain ⟨rfl, rfl⟩ := h
        exact ⟨by simp [hc], splitLastNL_none hcs⟩
      · simp [hc] at h

theorem getLast?_eq_dropLast_append {l : Str} {c : Char}
    (h : l.getLast? = Option.some c) : l = l.dropLast ++ [c] :=
  (List.dropLast_append_getLast? c h).symm

theorem stripOneNL_of_not_mem {l : Str} (h : '\n' ∉ l) : stripOneNL l = l := by
  unfold stripOneNL
  by_cases hl : l.getLast? = Option.some '\n'
  · exfalso
    apply h
    rw [getLast?_eq_dropLast_append hl]
    simp
  · simp [hl]

theorem stripOneNL_concat_nl (x : Str) : stripOneNL (x ++ ['\n']) = x := by
  unfold stripOneNL
  simp

theorem stripOneNL_append_cons (x y : Str) (hy : y ≠ []) :
    stripOneNL (x ++ '\n' :: y) = x ++ '\n' :: stripOneNL y := by
  obtain ⟨z, zs, rfl⟩ : ∃ z zs, y = z :: zs := by
    cases y with
    | nil => exact absurd rfl hy
    | cons z zs => exact ⟨z, zs, rfl⟩
  unfold stripOneNL
  rw [List.getLast?_append_cons, List.getLast?_cons_cons]
  by_cases h : (z :: zs).getLast? = Option.some '\n'
  · rw [if_pos h, if_pos h]
    rw [List.dropLast_append_of_ne_nil _ (by simp : '\n' :: z :: zs ≠ [])]
    simp [List.dropLast]
  · rw [if_neg h, if_neg h]

theorem joinNL_cons (x : Str) (xs : List Str) (h : xs ≠ []) :
    joinNL (x :: xs) = x ++ '\n' :: joinNL xs := by
  cases xs with
  | nil => exact absurd rfl h
  | cons y ys => rfl

/- ### Line Assembler: `Step.append_from_queue`

The loop consumes the hand-off queue, modelled as the ordered list of items
the producer pushes: `Option.some data` for a chunk, `Option.none` for the
EOF marker.  `cancel i` is the value of `current_worker.is_cancelled` read
at the top of the `i`-th loop iteration.  The result is the ordered list of
texts passed to the sink (`self.app.call_from_thread(self.append, ...)`)
together with the queue items left unconsumed when the loop terminates. -/
def append_from_queue (cancel : Nat → Bool) (i : Nat) (items : List (Option Str))
    (buffer : List Str) : List Str × List (Option Str) :=
  if cancel i then
    -- `if current_worker.is_cancelled: break` — no flush, queue not drained
    ([], items)
  else
    match items with
    | [] => ([], [])  -- `queue.get()` blocks forever: no further sink calls
    | Option.none :: rest =>
      -- EOF marker: flush a non-empty buffer, then break
      ((if buffer ≠ [] then [joinStr buffer] else []), rest)
    | Option.some data :: rest =>
      match splitLastNL data with
      | Option.none =>
        -- no newline: buffer the whole chunk
        append_from_queue cancel (i + 1) rest (buffer ++ [data])
      | Option.some (before, after) =>
        -- flush buffer + text before the last newline; keep the remainder
        let r := append_from_queue cancel (i + 1) rest
          (if after ≠ [] then [after] else [])
        ((joinStr buffer ++ before) :: r.1, r.2)

/-- One stream session without cancellation: the chunks followed by the EOF
marker, processed from an empty buffer; result is the list of sink calls. -/
def sinkCalls (chunks : List Str) : List Str :=
  (append_from_queue (fun _ => false) 0
    (chunks.map Option.some ++ [Option.none]) []).1

/-- Pure per-session recursion equivalent to the uncancelled loop on the
real chunks (EOF excluded): returns (sink calls so far, final buffer). -/
def runChunks : List Str → List Str → List Str × List Str
  | [], buffer => ([], buffer)
  | c :: rest, buffer =>
    match splitLastNL c with
    | Option.none => runChunks rest (buffer ++ [c])
    | Option.some (before, after) =>
      let r := runChunks rest (if after ≠ [] then [after] else [])
      ((joinStr buffer ++ before) :: r.1, r.2)

/-- The EOF flush: one final sink call if the buffer is non-empty. -/
def flushBuf (buffer : List Str) : List Str :=
  if buffer ≠ [] then [joinStr buffer] else []

/-- Sink calls of an uncancelled session starting from `buffer`. -/
def callsFrom (chunks : List Str) (buffer : List Str) : List Str :=
  (runChunks chunks buffer).1 ++ flushBuf (runChunks chunks buffer).2

theorem append_from_queue_no_cancel (chunks : List Str) :
    ∀ (i : Nat) (buffer : List Str),
    (append_from_queue (fun _ => false) i
      (chunks.map Option.some ++ [Option.none]) buffer).1 = callsFrom chunks buffer := by
  induction chunks with
  | nil =>
    intro i buffer
    simp [append_from_queue, callsFrom, runChunks, flushBuf]
  | cons c rest ih =>
    intro i buffer
    rw [append_from_queue.eq_def]
    simp only [List.map_cons, List.cons_append, List.append_eq, Bool.false_eq_true,
      if_false]
    cases h : splitLastNL c with
    | none =>
      simp only [callsFrom, runChunks, h]
      exact ih (i + 1) (buffer ++ [c])
    | some p =>
      obtain ⟨before, after⟩ := p
      simp only [callsFrom, runChunks, h]
      rw [ih (i + 1) (if after ≠ [] then [after] else [])]
      simp [callsFrom]

theorem sinkCalls_eq_callsFrom (chunks : List Str) :
    sinkCalls chunks = callsFrom chunks [] :=
  append_from_queue_no_cancel chunks 0 []

theorem runChunks_append (xs ys : List Str) : ∀ buffer : List Str,
    runChunks (xs ++ ys) buffer =
      ((runChunks xs buffer).1 ++ (runChunks ys (runChunks xs buffer).2).1,
       (runChunks ys (runChunks xs buffer).2).2) := by
  induction xs with
  | nil => intro buffer; simp [runChunks]
  | cons c rest ih =>
    intro buffer
    simp only [List.cons_append, List.append_eq, runChunks]
    cases h : splitLastNL c with
    | none => simp only [List.append_eq, ih]
    | some p =>
      obtain ⟨before, after⟩ := p
      simp [ih]

/-- Processing a chunk whose last character is a newline always leaves the
buffer empty. -/
theorem runChunks_last_nl (c : Str) (buffer : List Str)
    (h : c.getLast? = Option.some '\n') : (runChunks [c] buffer).2 = [] := by
  cases hs : splitLastNL c with
  | none =>
    exfalso
    apply splitLastNL_none hs
    rw [getLast?_eq_dropLast_append h]
    simp
  | some p =>
    obtain ⟨before, after⟩ := p
    obtain ⟨hc, hna⟩ := splitLastNL_some hs
    have hafter : after = [] := by
      by_contra hne
      apply hna
      have : c.getLast? = after.getLast? := by
        rw [hc, List.getLast?_append_cons]
        obtain ⟨z, zs, rfl⟩ : ∃ z zs, after = z :: zs := by
          cases after with
          | nil => exact absurd rfl hne
          | cons z zs => exact ⟨z, zs, rfl⟩
        rw [List.getLast?_cons_cons]
      rw [this] at h
      rw [getLast?_eq_dropLast_append h]
      simp
    simp [runChunks, hs, hafter]

theorem callsFrom_eq_nil_iff (chunks : List Str) : ∀ buffer : List Str,
    callsFrom chunks buffer = [] ↔ chunks = [] ∧ buffer = [] := by
  induction chunks with
  | nil =>
    intro buffer
    simp only [callsFrom, runChunks, flushBuf, List.nil_append, true_and]
    by_cases hb : buffer = []
    · simp [hb]
    · simp [hb]
  | cons c rest ih =>
    intro buffer
    simp only [callsFrom, runChunks]
    cases hs : splitLastNL c with
    | none =>
      have := ih (buffer ++ [c])
      simp only [callsFrom] at this
      rw [this]
      simp
    | some p =>
      obtain ⟨before, after⟩ := p
      simp

theorem ne_nil_append_left {x y : Str} (h : x ≠ []) : x ++ y ≠ [] := by
  cases x with
  | nil => exact absurd rfl h
  | cons a as => simp

theorem callsFrom_joinNL (chunks : List Str) : ∀ buffer : List Str,
    (∀ c ∈ chunks, c ≠ []) → '\n' ∉ joinStr buffer →
    joinNL (callsFrom chunks buffer) = stripOneNL (joinStr buffer ++ joinStr chunks) := by
  induction chunks with
  | nil =>
    intro buffer _ hbuf
    simp only [callsFrom, runChunks, flushBuf, List.nil_append, joinStr, List.append_nil]
    by_cases hb : buffer = []
    · simp [hb, joinNL, joinStr, stripOneNL]
    · rw [if_pos hb, joinNL, stripOneNL_of_not_mem hbuf]
  | cons c rest ih =>
    intro buffer hnel hbuf
    have hcne : ∀ c' ∈ rest, c' ≠ [] := fun c' hc' => hnel c' (List.mem_cons_of_mem _ hc')
    cases hs : splitLastNL c with
    | none =>
      have hcnl : '\n' ∉ c := splitLastNL_none hs
      have hstep : callsFrom (c :: rest) buffer = callsFrom rest (buffer ++ [c]) := by
        simp only [callsFrom, runChunks, hs]
      rw [hstep, ih (buffer ++ [c]) hcne
        (by rw [joinStr_concat]; simp only [List.mem_append, not_or]; exact ⟨hbuf, hcnl⟩)]
      rw [joinStr_concat, joinStr, List.append_assoc]
    | some p =>
      obtain ⟨before, after⟩ := p
      obtain ⟨hc, hna⟩ := splitLastNL_some hs
      have hbuf' : joinStr (if after ≠ [] then [after] else []) = after := by
        by_cases ha : after = []
        · simp [ha, joinStr]
        · simp [ha, joinStr]
      have hstep : callsFrom (c :: rest) buffer =
          (joinStr buffer ++ before) ::
            callsFrom rest (if after ≠ [] then [after] else []) := by
        simp only [callsFrom, runChunks, hs, List.cons_append]
      rw [hstep]
      by_cases hnil : callsFrom rest (if after ≠ [] then [after] else []) = []
      · obtain ⟨hrest, hbafter⟩ := (callsFrom_eq_nil_iff rest _).1 hnil
        have hafter : after = [] := by
          by_cases ha : after = []
          · exact ha
          · rw [if_pos ha] at hbafter; cases hbafter
        rw [hnil, joinNL]
        rw [hrest, hc, hafter]
        simp only [joinStr, List.append_nil]
        rw [← List.append_assoc]
        exact (stripOneNL_concat_nl (joinStr buffer ++ before)).symm
      · rw [joinNL_cons _ _ hnil]
        rw [ih _ hcne (by rw [hbuf']; exact hna)]
        rw [hbuf']
        have hy : after ++ joinStr rest ≠ [] := by
          by_cases ha : after = []
          · have hrne : rest ≠ [] := by
              intro hr
              exact hnil ((callsFrom_eq_nil_iff rest _).2 ⟨hr, by rw [if_neg (by simp [ha])]⟩)
            obtain ⟨c2, rest', rfl⟩ : ∃ c2 rest', rest = c2 :: rest' := by
              cases rest with
              | nil => exact absurd rfl hrne
              | cons c2 rest' => exact ⟨c2, rest', rfl⟩
            rw [ha, List.nil_append, joinStr]
            exact ne_nil_append_left (hcne c2 (List.mem_cons_self c2 rest'))
          · exact ne_nil_append_left ha
        rw [hc]
        have : joinStr buffer ++ joinStr ((before ++ '\n' :: after) :: rest) =
            (joinStr buffer ++ before) ++ '\n' :: (after ++ joinStr rest) := by
          simp [joinStr, List.append_assoc]
        rw [this, stripOneNL_append_cons _ _ hy]

/- ### FD Reader Worker: `Step.append_from_file_descriptor_to_queue`

Each call of `text_io.read(read_size)` either returns a string — the empty
string meaning end of stream — or raises an `OSError`.  A session is
modelled by the finite list of outcomes the descriptor will produce;
exhaustion of the list is read as end of stream as well.  `cancel i` is the
value of `current_worker.is_cancelled` observed after the `i`-th successful
non-empty read. -/
inductive ReadEvent where
  | chunk (s : Str)
  | fail (msg : String)
deriving DecidableEq

/-- The reader loop: returns the ordered list of values pushed onto the
hand-off queue (`Option.some data` chunks, `Option.none` EOF marker) and the
recorded error, if any.  On an exception the `queue.put_nowait(None)`
statement is skipped, because it sits inside the `try` block after the
loop. -/
def append_from_file_descriptor_to_queue (cancel : Nat → Bool) :
    Nat → List ReadEvent → List (Option Str) × Option String
  | _, [] => ([Option.none], Option.none)
  | i, ReadEvent.chunk d :: rest =>
    if d = [] then ([Option.none], Option.none)          -- empty read: EOF
    else if cancel i then ([Option.none], Option.none)   -- break, then put None
    else
      let r := append_from_file_descriptor_to_queue cancel (i + 1) rest
      (Option.some d :: r.1, r.2)
  | _, ReadEvent.fail msg :: _ => ([], Option.some msg)  -- exception path

/-- The reply the reader worker sends after its `try`/`except` block:
`helpers['reply'](done=error is None, error=error)`. -/
def pass_reply (error : Option String) : Bool × Option String :=
  (error.isNone, error)

/- ### Command Dispatcher: `Step.cli_action_append` / `Step.cli_action_pass` -/

/-- Result of dispatching an `append` command: either an immediate failure
reply, or the action to run with its joined text argument. -/
inductive AppendOutcome where
  | rejected (done : Bool) (error : String)
  | run (text : Str)
deriving DecidableEq

/-- `cli_action_append`: requires a `text` field (a list of strings) and
joins it with newlines; a missing field yields an immediate reply and no
action. -/
def cli_action_append (textField : Option (List Str)) : AppendOutcome :=
  match textField with
  | Option.none => AppendOutcome.rejected false "missing text for append operation"
  | Option.some texts => AppendOutcome.run (joinNL texts)

/-- Result of dispatching a `pass` command: either an immediate failure
reply, or the worker pair is started on the first descriptor with the given
`read_size` (extracted inside the worker with default 1). -/
inductive PassOutcome where
  | rejected (done : Bool) (error : String)
  | started (fd : Int) (read_size : Int)
deriving DecidableEq

/-- `cli_action_pass`: requires at least one file descriptor; `read_size`
is passed through unchecked and defaulted to 1 inside the reader worker
(`int(kwargs.get('read_size', 1))`). -/
def cli_action_pass (file_descriptors : List Int) (read_size : Option Int) :
    PassOutcome :=
  match file_descriptors with
  | [] => PassOutcome.rejected false "missing file descriptor for pass operation"
  | fd :: _ => PassOutcome.started fd (read_size.getD 1)

/- ### Append Sink: `Step.append` and the Color Continuity Tracker

`rich.text.Text.from_ansi` is external to the repository; a parsed text is
modelled abstractly by its length (number of visible characters) and its
list of style spans, each carrying the ANSI introducer string that
`style.render('_').split('_')[0]` would produce. -/
structure Span where
  start : Nat
  stop : Nat
  styleCode : Str
deriving DecidableEq

structure RichText where
  length : Nat
  spans : List Span
deriving DecidableEq

/-- `Step.last_character_color`: the rendered style of the last span if it
ends exactly at the end of the text, else the empty string. -/
def last_character_color (t : RichText) : Str :=
  match t.spans.getLast? with
  | Option.some sp => if sp.stop = t.length then sp.styleCode else []
  | Option.none => []

/-- The ANSI style-reset sequence `'\x1b[0m'` tested by `next_line_color`. -/
def resetSeq : Str := ['\x1b', '[', '0', 'm']

/-- `Step.next_line_color`: empty if the string ends with the reset
sequence, otherwise the color of the last character. -/
def next_line_color (s : Str) (t : RichText) : Str :=
  if resetSeq.isSuffixOf s then [] else last_character_color t

/-- The mutable widget state touched by the Append Sink: the rendered lines
and the trailing active style `self.color`. -/
structure StepState where
  lines : List Str
  color : Str
deriving DecidableEq

/-- The text `Step.append` hands to `self.log_widget.write`: the argument
with at most one trailing newline stripped, prefixed with the inherited
color when one is set. -/
def writtenText (color : Str) (text : Str) : Str :=
  let text1 := if text ≠ [] ∧ text.getLast? = Option.some '\n'
    then text.dropLast else text
  if color ≠ [] then color ++ text1 else text1

/-- `Step.append`: strip one trailing newline, prefix the inherited color,
and — when the text contains the ANSI escape character — parse it
(`Text.from_ansi`, abstracted by `parse`) and recompute the trailing active
style with `next_line_color`. -/
def Step.append (parse : Str → RichText) (st : StepState) (text : Str) :
    StepState :=
  let w := writtenText st.color text
  if '\x1b' ∈ w then
    { lines := st.lines ++ [w], color := next_line_color w (parse w) }
  else
    { lines := st.lines ++ [w], color := st.color }

/-- Modelled from the spec: "empty if the text's final bytes constitute an
explicit style-reset sequence, otherwise the style spanning the final
character if a style span reaches that character, else empty" — the style
of the last span covering the final character, when one exists. -/
def spec_trailing_style (s : Str) (t : RichText) : Str :=
  if resetSeq.isSuffixOf s then []
  else
    match (t.spans.filter
        (fun sp => decide (sp.start < t.length ∧ sp.stop = t.length))).getLast? with
    | Option.some sp => sp.styleCode
    | Option.none => []

/-- Executing an `append` command against a step: a missing `text` field
replies immediately and runs nothing; otherwise the append action runs on
the step.  Returns the new step state and the reply `(done, error)`. -/
def handle_append (parse : Str → RichText) (st : StepState)
    (textField : Option (List Str)) : StepState × Bool × Option String :=
  match cli_action_append textField with
  | AppendOutcome.rejected done error => (st, done, Option.some error)
  | AppendOutcome.run text => (Step.append parse st text, true, Option.none)

/- ### `MoultiLog` (`src/moulti/widgets/moultilog.py`) -/

/-- The `MoultiLog` state relevant to scrolling: the `auto_scroll` flag and
the written lines. -/
structure MoultiLogState where
  auto_scroll : Bool
  lines : List Str
deriving DecidableEq

/-- `MoultiLog.clear`: set `auto_scroll = True`, then `RichLog.clear`
(which empties the content). -/
def MoultiLog.clear (_s : MoultiLogState) : MoultiLogState :=
  { auto_scroll := true, lines := [] }

/-- `MoultiLog.on_mouse_scroll_up`: scrolling up with the wheel turns
`auto_scroll` off. -/
def MoultiLog.on_mouse_scroll_up (s : MoultiLogState) : MoultiLogState :=
  { s with auto_scroll := false }

/- ### Interleaved execution of the worker pair (for the `pass` operation)

The two `@work(thread=True)` workers run concurrently; their interaction
points are the hand-off queue, the reply callback, and the step's
`prevent_deletion` counter.  Each worker is a small state machine executing
one atomic action per scheduled step; a schedule is the list of choices of
which worker moves next (`true` = reader, `false` = assembler).  The global
trace records every externally visible event in order. -/
inductive Ev where
  | push (item : Option Str)          -- queue.put_nowait
  | sink (text : Str)                 -- call_from_thread(self.append, ...)
  | reply (done : Bool) (error : Option String)  -- helpers['reply'](...)
  | incBusy                           -- self.prevent_deletion += 1
  | decBusy                           -- self.prevent_deletion -= 1
deriving DecidableEq

/-- Reader worker control state. -/
inductive RSt where
  | reading (i : Nat) (reads : List ReadEvent)  -- inside the while loop
  | putEOF                                      -- about to put the EOF marker
  | sendReply (error : Option String)           -- about to call helpers['reply']
  | rdone
deriving DecidableEq

/-- Assembler worker control state. -/
inductive ASt where
  | start                               -- about to increment prevent_deletion
  | loop (i : Nat) (buffer : List Str)  -- top of the while loop
  | eof (buffer : List Str)             -- EOF marker dequeued, about to flush
  | finish                              -- about to decrement prevent_deletion
  | adone
deriving DecidableEq

structure Sys where
  rst : RSt
  ast : ASt
  queue : List (Option Str)
  trace : List Ev
deriving DecidableEq

/-- One atomic step of the reader worker. -/
def rstep (cancel : Nat → Bool) (s : Sys) : Sys :=
  match s.rst with
  | RSt.reading i reads =>
    match reads with
    | [] => { s with rst := RSt.putEOF }  -- read returned '': leave the loop
    | ReadEvent.chunk d :: rest =>
      if d = [] then { s with rst := RSt.putEOF }
      else if cancel i then { s with rst := RSt.putEOF }  -- break
      else { s with rst := RSt.reading (i + 1) rest,
                    queue := s.queue ++ [Option.some d],
                    trace := s.trace ++ [Ev.push (Option.some d)] }
    | ReadEvent.fail msg :: _ =>
      -- exception: jump to the except block, skipping the EOF put
      { s with rst := RSt.sendReply (Option.some msg) }
  | RSt.putEOF =>
    { s with rst := RSt.sendReply Option.none,
             queue := s.queue ++ [Option.none],
             trace := s.trace ++ [Ev.push Option.none] }
  | RSt.sendReply e =>
    { s with rst := RSt.rdone, trace := s.trace ++ [Ev.reply e.isNone e] }
  | RSt.rdone => s

/-- One atomic step of the assembler worker; dequeuing from an empty queue
blocks, leaving the state unchanged. -/
def astep (cancel : Nat → Bool) (s : Sys) : Sys :=
  match s.ast with
  | ASt.start =>
    { s with ast := ASt.loop 0 [], trace := s.trace ++ [Ev.incBusy] }
  | ASt.loop i buffer =>
    if cancel i then { s with ast := ASt.finish }  -- break without draining
    else
      match s.queue with
      | [] => s  -- queue.get() blocks
      | Option.none :: q => { s with ast := ASt.eof buffer, queue := q }
      | Option.some data :: q =>
        match splitLastNL data with
        | Option.none =>
          { s with ast := ASt.loop (i + 1) (buffer ++ [data]), queue := q }
        | Option.some (before, after) =>
          { s with ast := ASt.loop (i + 1) (if after ≠ [] then [after] else []),
                   queue := q,
                   trace := s.trace ++ [Ev.sink (joinStr buffer ++ before)] }
  | ASt.eof buffer =>
    if buffer ≠ [] then
      { s with ast := ASt.finish, trace := s.trace ++ [Ev.sink (joinStr buffer)] }
    else { s with ast := ASt.finish }
  | ASt.finish =>
    { s with ast := ASt.adone, trace := s.trace ++ [Ev.decBusy] }
  | ASt.adone => s

/-- One scheduled step: `true` runs the reader, `false` the assembler. -/
def sysStep (rcancel acancel : Nat → Bool) (s : Sys) (choice : Bool) : Sys :=
  if choice then rstep rcancel s else astep acancel s

/-- Run the worker pair under a schedule. -/
def sysRun (rcancel acancel : Nat → Bool) (sched : List Bool) (s : Sys) : Sys :=
  sched.foldl (sysStep rcancel acancel) s

/-- The system right after `cli_action_pass` accepted the command and
started the worker pair. -/
def initSys (reads : List ReadEvent) : Sys :=
  { rst := RSt.reading 0 reads, ast := ASt.start, queue := [], trace := [] }

/-- Number of replies in a trace. -/
def replyCount (tr : List Ev) : Nat :=
  tr.countP (fun e => match e with | Ev.reply _ _ => true | _ => false)

/-- `true` iff every reply in the trace is preceded by a busy-counter
decrement. -/
def replyAfterDecCheck : Bool → List Ev → Bool
  | _, [] => true
  | _, Ev.decBusy :: rest => replyAfterDecCheck true rest
  | seen, Ev.reply _ _ :: rest => seen && replyAfterDecCheck seen rest
  | seen, _ :: rest => replyAfterDecCheck seen rest

/-- 1 while the reader still owes its reply, 0 once sent. -/
def pendingReply : RSt → Nat
  | RSt.rdone => 0
  | _ => 1

theorem replyCount_append_nonreply (tr : List Ev) (e : Ev)
    (h : (match e with | Ev.reply _ _ => true | _ => false) = false) :
    replyCount (tr ++ [e]) = replyCount tr := by
  simp [replyCount, List.countP_append, List.countP_cons, List.countP_nil, h]

theorem sysStep_reply_inv (rcancel acancel : Nat → Bool) (s : Sys) (c : Bool) :
    replyCount (sysStep rcancel acancel s c).trace
      + pendingReply (sysStep rcancel acancel s c).rst
      = replyCount s.trace + pendingReply s.rst := by
  cases c with
  | true =>
    simp only [sysStep, if_pos rfl]
    cases hr : s.rst with
    | reading i reads =>
      cases reads with
      | nil => simp [rstep, hr, pendingReply]
      | cons ev rest =>
        cases ev with
        | chunk d =>
          by_cases hd : d = []
          · simp [rstep, hr, hd, pendingReply]
          · by_cases hc : rcancel i = true
            · simp [rstep, hr, hd, hc, pendingReply]
            · simp [rstep, hr, hd, hc, pendingReply,
                replyCount_append_nonreply _ (Ev.push (Option.some d)) rfl]
        | fail msg => simp [rstep, hr, pendingReply]
    | putEOF =>
      simp [rstep, hr, pendingReply,
        replyCount_append_nonreply _ (Ev.push Option.none) rfl]
    | sendReply e =>
      simp [rstep, hr, pendingReply, replyCount, List.countP_append,
        List.countP_cons, List.countP_nil]
    | rdone => simp [rstep, hr]
  | false =>
    simp only [sysStep, Bool.false_eq_true, if_false]
    cases ha : s.ast with
    | start =>
      simp [astep, ha, replyCount_append_nonreply _ Ev.incBusy rfl]
    | loop i buffer =>
      by_cases hc : acancel i = true
      · simp [astep, ha, hc]
      · cases hq : s.queue with
        | nil => simp [astep, ha, hc, hq]
        | cons item q =>
          cases item with
          | none => simp [astep, ha, hc, hq]
          | some data =>
            cases hs : splitLastNL data with
            | none => simp [astep, ha, hc, hq, hs]
            | some p =>
              obtain ⟨before, after⟩ := p
              simp [astep, ha, hc, hq, hs,
                replyCount_append_nonreply _ (Ev.sink (joinStr buffer ++ before)) rfl]
    | eof buffer =>
      by_cases hb : buffer ≠ []
      · simp [astep, ha, hb, replyCount_append_nonreply _ (Ev.sink (joinStr buffer)) rfl]
      · simp [astep, ha, hb]
    | finish => simp [astep, ha, replyCount_append_nonreply _ Ev.decBusy rfl]
    | adone => simp [astep, ha]

theorem sysRun_reply_inv (rcancel acancel : Nat → Bool) (sched : List Bool) :
    ∀ s : Sys,
    replyCount (sysRun rcancel acancel sched s).trace
      + pendingReply (sysRun rcancel acancel sched s).rst
      = replyCount s.trace + pendingReply s.rst := by
  induction sched with
  | nil => intro s; rfl
  | cons c cs ih =>
    intro s
    simp only [sysRun, List.foldl_cons]
    rw [show List.foldl (sysStep rcancel acancel) (sysStep rcancel acancel s c) cs
      = sysRun rcancel acancel cs (sysStep rcancel acancel s c) from rfl]
    rw [ih (sysStep rcancel acancel s c)]
    exact sysStep_reply_inv rcancel acancel s c

theorem next_line_color_eq_spec (s : Str) (t : RichText)
    (hwf : ∀ sp ∈ t.spans, sp.stop ≤ t.length ∧ sp.start < sp.stop)
    (hsorted : t.spans.Pairwise (fun a b => a.stop ≤ b.stop)) :
    next_line_color s t = spec_trailing_style s t := by
  obtain ⟨len, spans⟩ := t
  simp only at hwf hsorted
  unfold next_line_color spec_trailing_style
  by_cases hr : resetSeq.isSuffixOf s = true
  · simp [hr]
  · simp only [hr, Bool.false_eq_true, if_false]
    rcases List.eq_nil_or_concat spans with hnil | ⟨l, sp, hcat⟩
    · subst hnil
      simp [last_character_color]
    · rw [List.concat_eq_append] at hcat
      subst hcat
      simp only [last_character_color, List.getLast?_concat]
      by_cases hstop : sp.stop = len
      · have hp : decide (sp.start < len ∧ sp.stop = len) = true := by
          have h1 := hwf sp (by simp)
          simp only [decide_eq_true_eq]
          exact ⟨lt_of_lt_of_le h1.2 (le_of_eq hstop), hstop⟩
        have hfl : (l ++ [sp]).filter (fun x => decide (x.start < len ∧ x.stop = len))
            = l.filter (fun x => decide (x.start < len ∧ x.stop = len)) ++ [sp] := by
          rw [List.filter_append]
          congr 1
          rw [List.filter_cons, if_pos hp, List.filter_nil]
        rw [hfl, List.getLast?_concat, if_pos hstop]
      · have hfil : (l ++ [sp]).filter
            (fun x => decide (x.start < len ∧ x.stop = len)) = [] := by
          rw [List.filter_eq_nil_iff]
          intro x hx
          simp only [decide_eq_true_eq, not_and]
          intro _
          have hxstop : x.stop ≤ sp.stop := by
            rcases List.mem_append.1 hx with hxl | hxsp
            · rw [List.pairwise_append] at hsorted
              exact hsorted.2.2 x hxl sp (by simp)
            · simp at hxsp
              rw [hxsp]
          have hsplen : sp.stop < len :=
            lt_of_le_of_ne (hwf sp (by simp)).1 hstop
          omega
        rw [hfil, if_neg hstop]
        rfl

theorem Step_append_lines (parse : Str → RichText) (st : StepState) (text : Str) :
    (Step.append parse st text).lines = st.lines ++ [writtenText st.color text] := by
  unfold Step.append
  by_cases h : '\x1b' ∈ writtenText st.color text <;> simp [h]

theorem writtenText_eq (color text : Str) :
    writtenText color text = color ++ stripOneNL text := by
  unfold writtenText stripOneNL
  have hcond : (text ≠ [] ∧ text.getLast? = Option.some '\n')
      ↔ text.getLast? = Option.some '\n' := by
    constructor
    · exact And.right
    · intro h
      refine ⟨?_, h⟩
      intro hnil
      rw [hnil] at h
      cases h
  by_cases h : text.getLast? = Option.some '\n'
  · rw [if_pos (hcond.2 h), if_pos h]
    by_cases hc : color = []
    · simp [hc]
    · simp [hc]
  · rw [if_neg (fun hh => h (hcond.1 hh)), if_neg h]
    by_cases hc : color = []
    · simp [hc]
    · simp [hc]

/- ### The claims -/

/-- C1, counterexample: for the single chunk `"a\nb\nc"` followed by EOF,
the assembler passes `["a\nb", "c"]` to the sink — not the sequence
`["a", "b", "c"]` obtained by splitting the concatenated input on newline
boundaries.  The sink-call sequence therefore differs from the claimed
newline split. -/
theorem C1_counterexample :
    sinkCalls [['a', '\n', 'b', '\n', 'c']]
      ≠ specSplitLines (joinStr [['a', '\n', 'b', '\n', 'c']]) := by decide

/-- C1 (amended): for every input text and every partition into non-empty
chunks, the texts passed to the Append Sink, joined with single newlines,
equal the concatenated input with at most one trailing newline stripped —
individual sink calls may contain embedded newlines when a chunk holds
more than one, so the call sequence itself is partition-dependent. -/
theorem C1_assembled_join (chunks : List Str) (h : ∀ c ∈ chunks, c ≠ []) :
    joinNL (sinkCalls chunks) = stripOneNL (joinStr chunks) := by
  rw [sinkCalls_eq_callsFrom, callsFrom_joinNL chunks [] h (by simp [joinStr])]
  simp [joinStr]

/-- C1, witness: the amended statement at the concrete partition
`["ab", "c\nd"]`. -/
theorem C1_witness :
    (∀ c ∈ [['a', 'b'], ['c', '\n', 'd']], c ≠ ([] : Str)) ∧
    joinNL (sinkCalls [['a', 'b'], ['c', '\n', 'd']])
      = stripOneNL (joinStr [['a', 'b'], ['c', '\n', 'd']]) :=
  ⟨by decide, C1_assembled_join [['a', 'b'], ['c', '\n', 'd']] (by decide)⟩

/-- C2: on the I/O-failure exit path the reader pushes no EOF marker at all
(the `queue.put_nowait(None)` inside the `try` block is skipped by the
exception), while on the normal path it pushes exactly one — the code
contradicts the spec's "still push the EOF marker so the consumer
terminates cleanly". -/
theorem C2_eof_marker_skipped_on_error :
    (append_from_file_descriptor_to_queue (fun _ => false) 0
      [ReadEvent.chunk ['a'], ReadEvent.fail "Input/output error"]).1.count Option.none = 0
    ∧ (append_from_file_descriptor_to_queue (fun _ => false) 0
      [ReadEvent.chunk ['a']]).1.count Option.none = 1 := by decide

/-- C3, counterexample: a complete interleaving in which the reader worker
runs to completion first — the reply is emitted before the assembler has
even incremented the busy counter, let alone terminated and decremented
it, refuting "that reply is emitted only after both ... have fully
terminated and the busy counter has been decremented". -/
theorem C3_counterexample :
    (sysRun (fun _ => false) (fun _ => false)
      [true, true, true, false, false, false, false] (initSys [])).rst = RSt.rdone
    ∧ (sysRun (fun _ => false) (fun _ => false)
      [true, true, true, false, false, false, false] (initSys [])).ast = ASt.adone
    ∧ replyAfterDecCheck false (sysRun (fun _ => false) (fun _ => false)
      [true, true, true, false, false, false, false] (initSys [])).trace = false := by decide

/-- C3 (amended): under every schedule and cancellation behaviour, a pass
operation emits at most one reply, and exactly one once the FD Reader
Worker has terminated; the reply is sent by the reader on its own
completion and may precede the Line Assembler's termination and the busy
counter decrement. -/
theorem C3_one_reply (rcancel acancel : Nat → Bool) (sched : List Bool)
    (reads : List ReadEvent) :
    replyCount (sysRun rcancel acancel sched (initSys reads)).trace ≤ 1
    ∧ ((sysRun rcancel acancel sched (initSys reads)).rst = RSt.rdone →
        replyCount (sysRun rcancel acancel sched (initSys reads)).trace = 1) := by
  have h := sysRun_reply_inv rcancel acancel sched (initSys reads)
  have hinit : replyCount (initSys reads).trace
      + pendingReply (initSys reads).rst = 1 := by
    simp [initSys, replyCount, pendingReply]
  rw [hinit] at h
  constructor
  · omega
  · intro hdone
    rw [hdone] at h
    simp only [pendingReply] at h
    omega

/-- C3, witness: the amended statement on a schedule that completes the
reader. -/
theorem C3_witness :
    (sysRun (fun _ => false) (fun _ => false) [true, true, true]
      (initSys [])).rst = RSt.rdone
    ∧ replyCount (sysRun (fun _ => false) (fun _ => false) [true, true, true]
      (initSys [])).trace = 1 :=
  ⟨by decide, (C3_one_reply (fun _ => false) (fun _ => false) [true, true, true] []).2
    (by decide)⟩

/-- C4, counterexample: a cancelled assembler does not drain the queue to
the EOF marker — with the cancel signal set and the queue holding a chunk
and the EOF marker, the loop exits leaving both items unconsumed. -/
theorem C4_counterexample :
    (append_from_queue (fun _ => true) 0
      [Option.some ['a', '\n'], Option.none] []).2 ≠ [] := by decide

/-- C4 (amended): when the cancellation signal is observed at the top of a
loop iteration, the assembler terminates immediately: it makes no further
sink calls and dequeues nothing further, leaving the remaining queue items
(including the EOF marker) unconsumed. -/
theorem C4_cancel_stops_immediately (cancel : Nat → Bool) (i : Nat)
    (items : List (Option Str)) (buffer : List Str) (h : cancel i = true) :
    append_from_queue cancel i items buffer = ([], items) := by
  rw [append_from_queue.eq_def, if_pos h]

/-- C4, witness: a cancelled run on a concrete queue. -/
theorem C4_witness :
    ((fun _ : Nat => true) 0 = true) ∧
    append_from_queue (fun _ => true) 0 [Option.some ['a', '\n'], Option.none] []
      = ([], [Option.some ['a', '\n'], Option.none]) :=
  ⟨rfl, C4_cancel_stops_immediately (fun _ => true) 0
    [Option.some ['a', '\n'], Option.none] [] rfl⟩

/-- C5, counterexample: a pass command with a descriptor and a supplied
`read_size` of zero is not rejected — no ValidationError exists for it, and
the worker pair is started. -/
theorem C5_counterexample :
    ¬ ∃ msg : String, cli_action_pass [3] (Option.some 0)
      = PassOutcome.rejected false msg := by
  intro h
  obtain ⟨msg, h⟩ := h
  cases h

/-- C5 (amended): `read_size` is optional with default 1, but it is never
validated: whenever at least one descriptor is supplied the workers are
started with whatever value was given (zero and negative included). -/
theorem C5_read_size_unvalidated (fd : Int) (fds : List Int)
    (read_size : Option Int) :
    cli_action_pass (fd :: fds) read_size
      = PassOutcome.started fd (read_size.getD 1) := rfl

/-- C6: after an append whose written text contains the ANSI escape
character, the trailing active style equals the spec's recomputation —
empty on a trailing reset sequence, otherwise the style of the span
covering the final character when one reaches it, else empty — given the
well-formedness of the parsed spans that `Text.from_ansi` guarantees
(spans end within the text, are non-empty, and are ordered by end). -/
theorem C6_trailing_style (parse : Str → RichText) (st : StepState) (text : Str)
    (hesc : '\x1b' ∈ writtenText st.color text)
    (hwf : ∀ sp ∈ (parse (writtenText st.color text)).spans,
      sp.stop ≤ (parse (writtenText st.color text)).length ∧ sp.start < sp.stop)
    (hsorted : (parse (writtenText st.color text)).spans.Pairwise
      (fun a b => a.stop ≤ b.stop)) :
    (Step.append parse st text).color
      = spec_trailing_style (writtenText st.color text)
          (parse (writtenText st.color text)) := by
  unfold Step.append
  simp only [hesc, if_pos]
  exact next_line_color_eq_spec _ _ hwf hsorted

/-- C6, witness: a red-styled text whose span covers the final character. -/
theorem C6_witness :
    ('\x1b' ∈ writtenText ([] : Str) ['\x1b', '[', '3', '1', 'm', 'a']) ∧
    (Step.append (fun _ => RichText.mk 1 [Span.mk 0 1 ['R']])
        (StepState.mk [] []) ['\x1b', '[', '3', '1', 'm', 'a']).color
      = spec_trailing_style (writtenText ([] : Str) ['\x1b', '[', '3', '1', 'm', 'a'])
          ((fun _ => RichText.mk 1 [Span.mk 0 1 ['R']])
            (writtenText ([] : Str) ['\x1b', '[', '3', '1', 'm', 'a'])) :=
  ⟨by decide, C6_trailing_style (fun _ => RichText.mk 1 [Span.mk 0 1 ['R']])
    (StepState.mk [] []) ['\x1b', '[', '3', '1', 'm', 'a']
    (by decide) (by decide) (by decide)⟩

/-- C7: `Step.append` removes at most one trailing newline, and only when
one is present; everything else in the text — additional trailing newlines
included — is preserved in the written line (after the inherited color
prefix). -/
theorem C7_strip_at_most_one (parse : Str → RichText) (st : StepState)
    (text : Str) :
    ∃ b : Bool,
      (Step.append parse st text).lines
        = st.lines ++ [st.color ++ (if b then text.dropLast else text)]
      ∧ text = (if b then text.dropLast else text)
          ++ (if b then ['\n'] else [])
      ∧ (b = true ↔ text.getLast? = Option.some '\n') := by
  by_cases h : text.getLast? = Option.some '\n'
  · refine ⟨true, ?_, ?_, by simp [h]⟩
    · rw [Step_append_lines, writtenText_eq]
      simp [stripOneNL, h]
    · simpa using getLast?_eq_dropLast_append h
  · refine ⟨false, ?_, by simp, by simp [h]⟩
    rw [Step_append_lines, writtenText_eq]
    simp [stripOneNL, h]

/-- C8: an append command without a `text` field yields the immediate
reply `(done := false, error := "missing text for append operation")` and
leaves the step state untouched — no action runs, no worker is started. -/
theorem C8_missing_text (parse : Str → RichText) (st : StepState) :
    handle_append parse st Option.none
      = (st, false, Option.some "missing text for append operation") := rfl

/-- C9: a chunk ending in a newline leaves the assembler's buffer empty,
so a stream whose final chunk ends with a newline triggers no extra sink
call when the EOF marker is consumed: the sink calls are exactly the ones
emitted while processing the chunks. -/
theorem C9_trailing_newline_empties_buffer (chunks : List Str) (c : Str)
    (buffer : List Str) (h : c.getLast? = Option.some '\n') :
    (runChunks [c] buffer).2 = []
    ∧ sinkCalls (chunks ++ [c]) = (runChunks (chunks ++ [c]) []).1 := by
  refine ⟨runChunks_last_nl c buffer h, ?_⟩
  rw [sinkCalls_eq_callsFrom]
  unfold callsFrom
  have h2 : (runChunks (chunks ++ [c]) []).2 = [] := by
    rw [runChunks_append]
    exact runChunks_last_nl c _ h
  rw [h2]
  simp [flushBuf]

/-- C9, witness: chunks `["a", "b\n"]`. -/
theorem C9_witness :
    ((['b', '\n'] : Str).getLast? = Option.some '\n') ∧
    ((runChunks [['b', '\n']] []).2 = []
      ∧ sinkCalls [['a'], ['b', '\n']] = (runChunks [['a'], ['b', '\n']] []).1) :=
  ⟨by decide, C9_trailing_newline_empties_buffer [['a']] ['b', '\n'] [] (by decide)⟩

/-- C10: `MoultiLog.clear` always re-enables auto-scroll, whatever the
previous state (including one where scrolling had disabled it). -/
theorem C10_clear_enables_auto_scroll (s : MoultiLogState) :
    (MoultiLog.clear s).auto_scroll = true := rfl
